import Mathlib

/-!
Shallow embedding of the `nanosecond-arbiter` matching engine
(`src/matching_engine.rs`) and of the TCP ingress adapter
(`src/gateway.rs`), together with theorems settling the specification
claims about them.

Modelling conventions:
* Rust `u64` values are modelled as `Nat`.  The engine only ever compares
  `u64`s, takes `min`, and subtracts a smaller quantity from a larger one,
  so no wrap-around can occur and `Nat` is an exact model.
* `BTreeMap<u64, Vec<Order>>` is modelled as an association list
  `List (Nat × List Order)` whose keys appear in strictly ascending order,
  mirroring the map's iteration order: `iter_mut().next()` is the head of
  the list, `iter_mut().next_back()` is its last element.
* `Vec<Order>` is modelled as `List Order` in index order: `Vec::push`
  appends at the end, `Vec::pop` removes the last element.
* The `while` match loop of `add_limit_order` is written as a
  fuel-indexed structural recursion; the wrapper passes
  `quantity + (total resting orders on the opposing side) + 1` units of
  fuel, and `buyLoopF_fuel_sufficient` / `sellLoopF_fuel_sufficient`
  prove that this bound makes the result independent of the exact fuel,
  i.e. the loop always runs to its `break` like the Rust `while` does.
-/

namespace NanosecondArbiter

/-- `enum OrderSide { Buy, Sell }` from `src/matching_engine.rs`. -/
inductive OrderSide where
  | Buy : OrderSide
  | Sell : OrderSide
  deriving DecidableEq

/-- `struct Order { id, side, price, quantity }` from `src/matching_engine.rs`. -/
structure Order where
  id : Nat
  side : OrderSide
  price : Nat
  quantity : Nat
  deriving DecidableEq

/-- `struct TradeExecution { maker_order_id, taker_order_id, price, quantity }`
from `src/matching_engine.rs`. -/
structure TradeExecution where
  maker_order_id : Nat
  taker_order_id : Nat
  price : Nat
  quantity : Nat
  deriving DecidableEq

/-- A price-sorted map side of the book: association list with strictly
ascending keys, modelling `BTreeMap<u64, Vec<Order>>`. -/
abbrev BookSide := List (Nat × List Order)

/-- `struct OrderBook { bids, asks }` from `src/matching_engine.rs`. -/
structure OrderBook where
  bids : BookSide
  asks : BookSide
  deriving DecidableEq

/-- `OrderBook::new()`. -/
def OrderBook.new : OrderBook := ⟨[], []⟩

/-- Remove and return the last element of a list, or `none` when empty.
Models both `Vec::pop` (on a price level) and the
`iter_mut().next_back()` view of the last entry of a `BTreeMap`. -/
def popLast {α : Type} (v : List α) : Option (α × List α) :=
  match v.getLast? with
  | some a => some (a, v.dropLast)
  | none => none

/-- `map.entry(p).or_insert_with(Vec::new).push(o)` on a key-sorted
association list: append `o` to the level at key `p`, creating the level
at its sorted position when absent. -/
def entryPush (m : BookSide) (p : Nat) (o : Order) : BookSide :=
  match m with
  | [] => [(p, [o])]
  | (k, l) :: rest =>
    if p < k then (p, [o]) :: (k, l) :: rest
    else if p = k then (k, l ++ [o]) :: rest
    else (k, l) :: entryPush rest p o

/-- Total number of resting orders on one side (used as a fuel bound). -/
def sideSize (m : BookSide) : Nat := (m.map (fun pl => pl.2.length)).sum

/-- The `OrderSide::Buy` arm of the `while order.quantity > 0` loop of
`OrderBook::add_limit_order`, as a fuel-indexed recursion.  One fuel unit
is one loop iteration; running out of fuel acts like `break` (the wrapper
always supplies enough fuel, see `buyLoopF_fuel_sufficient`).  Each
iteration: look at the first (lowest-price) ask entry; if the incoming
buy price crosses it, `pop` the last order of that level's `Vec`, trade
`min` of the two quantities, push the maker's remainder back when
positive, and continue; otherwise break.  Returns the executions pushed,
the remaining taker quantity, and the resulting asks side. -/
def buyLoopF (oid oprice : Nat) :
    Nat → Nat → BookSide → List TradeExecution × Nat × BookSide
  | 0, qty, asks => ([], qty, asks)
  | fuel + 1, qty, asks =>
    if qty = 0 then ([], qty, asks)
    else
      match asks with
      | [] => ([], qty, asks)
      | (bestAskPrice, orders) :: rest =>
        if bestAskPrice ≤ oprice then
          match popLast orders with
          | some (matchedOrder, poppedLevel) =>
            let matchQuantity := min qty matchedOrder.quantity
            let makerRemaining := matchedOrder.quantity - matchQuantity
            let newLevel :=
              if makerRemaining > 0 then
                poppedLevel ++ [{ matchedOrder with quantity := makerRemaining }]
              else poppedLevel
            let r := buyLoopF oid oprice fuel (qty - matchQuantity)
              ((bestAskPrice, newLevel) :: rest)
            ({ maker_order_id := matchedOrder.id, taker_order_id := oid,
               price := bestAskPrice, quantity := matchQuantity } :: r.1, r.2)
          | none => ([], qty, asks)
        else ([], qty, asks)

/-- The `OrderSide::Sell` arm of the loop: symmetric to `buyLoopF`, but the
best opposing level is the *last* entry of `bids` (`iter_mut().next_back()`,
the highest bid price), and crossing means `oprice ≤ bestBidPrice`. -/
def sellLoopF (oid oprice : Nat) :
    Nat → Nat → BookSide → List TradeExecution × Nat × BookSide
  | 0, qty, bids => ([], qty, bids)
  | fuel + 1, qty, bids =>
    if qty = 0 then ([], qty, bids)
    else
      match popLast bids with
      | some ((bestBidPrice, orders), front) =>
        if oprice ≤ bestBidPrice then
          match popLast orders with
          | some (matchedOrder, poppedLevel) =>
            let matchQuantity := min qty matchedOrder.quantity
            let makerRemaining := matchedOrder.quantity - matchQuantity
            let newLevel :=
              if makerRemaining > 0 then
                poppedLevel ++ [{ matchedOrder with quantity := makerRemaining }]
              else poppedLevel
            let r := sellLoopF oid oprice fuel (qty - matchQuantity)
              (front ++ [(bestBidPrice, newLevel)])
            ({ maker_order_id := matchedOrder.id, taker_order_id := oid,
               price := bestBidPrice, quantity := matchQuantity } :: r.1, r.2)
          | none => ([], qty, bids)
        else ([], qty, bids)
      | none => ([], qty, bids)

/-- `OrderBook::add_limit_order` from `src/matching_engine.rs`: run the
match loop of the order's side, then, if quantity remains, rest the order
(with its decreased quantity) in its own side's level at its price.
Returns the executions and the new book. -/
def add_limit_order (book : OrderBook) (order : Order) :
    List TradeExecution × OrderBook :=
  match order.side with
  | .Buy =>
    let r := buyLoopF order.id order.price
      (order.quantity + sideSize book.asks + 1) order.quantity book.asks
    let bids' :=
      if r.2.1 > 0 then entryPush book.bids order.price { order with quantity := r.2.1 }
      else book.bids
    (r.1, { bids := bids', asks := r.2.2 })
  | .Sell =>
    let r := sellLoopF order.id order.price
      (order.quantity + sideSize book.bids + 1) order.quantity book.bids
    let asks' :=
      if r.2.1 > 0 then entryPush book.asks order.price { order with quantity := r.2.1 }
      else book.asks
    (r.1, { bids := r.2.2, asks := asks' })

/-- Apply a sequence of submissions to a book, keeping only the final book. -/
def submitAll (book : OrderBook) (orders : List Order) : OrderBook :=
  orders.foldl (fun b o => (add_limit_order b o).2) book

/-- The side of the book an incoming order of the given side matches
against (asks for a buy, bids for a sell). -/
def opposing (book : OrderBook) : OrderSide → BookSide
  | .Buy => book.asks
  | .Sell => book.bids

/-- Sum of the `quantity` fields of a list of executions. -/
def execQtySum (es : List TradeExecution) : Nat :=
  (es.map (fun e => e.quantity)).sum

/-- The price keys of one side that actually hold at least one resting
order (levels whose `Vec` is empty carry no liquidity). -/
def restingPrices (m : BookSide) : List Nat :=
  (m.filter (fun pl => ¬pl.2.isEmpty)).map (fun pl => pl.1)

/-- Well-formedness of one side of the book: every resting order carries
the given side and the price key of the level holding it. -/
def sideWF (s : OrderSide) (m : BookSide) : Prop :=
  ∀ pl ∈ m, ∀ o ∈ pl.2, o.side = s ∧ o.price = pl.1

instance (s : OrderSide) (m : BookSide) : Decidable (sideWF s m) := by
  unfold sideWF; infer_instance

/-- Well-formedness of the whole book: bids hold buy orders at their key
price, asks hold sell orders at their key price. -/
def bookWF (b : OrderBook) : Prop :=
  sideWF .Buy b.bids ∧ sideWF .Sell b.asks

instance (b : OrderBook) : Decidable (bookWF b) := by
  unfold bookWF; infer_instance

/-!
Embedding of the ingress adapter `handle_client` from `src/gateway.rs`.
The adapter reads one line at a time, attempts
`serde_json::from_str::<Order>` on it, and either
* on parse success, pushes the order onto the SPSC ring and answers
  `{"status":"accepted"}` (or `{"status":"dropped","reason":"buffer_full"}`
  when the ring is full), or
* on parse failure, answers `{"status":"error",...}` without enqueuing.

We model the JSON text already split into a small JSON value tree, and
the derived `Deserialize` impl for `Order` (fields `id`, `side`, `price`,
`quantity`; `side` is the string `"Buy"` or `"Sell"`; the numeric fields
are `u64`, so any integer in `[0, 2^64)` — including `0` — deserializes
successfully).  The ring's fullness is passed in as a flag, since the
claim only concerns whether the order is enqueued at all.
-/

/-- Minimal JSON value tree (what `serde_json` parses a line into). -/
inductive Json where
  | num : Nat → Json
  | str : String → Json
  | obj : List (String × Json) → Json

/-- Field lookup in a parsed JSON object. -/
def jsonLookup (fields : List (String × Json)) (k : String) : Option Json :=
  (fields.find? (fun kv => kv.1 = k)).map (fun kv => kv.2)

/-- The derived deserializer for a `u64` field: accepts any integer in the
`u64` range, including 0. -/
def parseU64 : Json → Option Nat
  | .num n => if n < 2 ^ 64 then some n else none
  | _ => none

/-- The derived deserializer for `OrderSide`. -/
def parseSide : Json → Option OrderSide
  | .str s => if s = "Buy" then some .Buy else if s = "Sell" then some .Sell else none
  | _ => none

/-- The derived `Deserialize` impl for `Order`, as invoked by
`serde_json::from_str::<Order>` in `handle_client`. -/
def orderFromJson : Json → Option Order
  | .obj fields => do
    let id ← parseU64 (← jsonLookup fields "id")
    let side ← parseSide (← jsonLookup fields "side")
    let price ← parseU64 (← jsonLookup fields "price")
    let quantity ← parseU64 (← jsonLookup fields "quantity")
    some { id := id, side := side, price := price, quantity := quantity }
  | _ => none

/-- The three response lines `handle_client` can write for one submission. -/
inductive GatewayResponse where
  | accepted : GatewayResponse
  | dropped : GatewayResponse
  | parseError : GatewayResponse
  deriving DecidableEq

/-- One iteration of the `handle_client` line loop from `src/gateway.rs`:
parse the line as an `Order`; on success push it onto the ring (modelled
by `queueHasSpace`) and answer accepted/dropped; on failure answer an
error and enqueue nothing.  Returns the response and the enqueued order,
if any. -/
def handle_line (line : Json) (queueHasSpace : Bool) :
    GatewayResponse × Option Order :=
  match orderFromJson line with
  | some order =>
    if queueHasSpace then (.accepted, some order) else (.dropped, none)
  | none => (.parseError, none)

/-! Concrete pre-states, taken from the seed scenarios of the spec. -/

/-- Seed scenario 4 pre-state: two asks at price 10000, quantity 10 each,
inserted in id order (id 1 first, id 2 second). -/
def timePriorityBook : OrderBook :=
  submitAll OrderBook.new [⟨1, .Sell, 10000, 10⟩, ⟨2, .Sell, 10000, 10⟩]

/-- Seed scenario 3 pre-state: a single ask id 1, price 10000, quantity 50. -/
def exactFillBook : OrderBook :=
  submitAll OrderBook.new [⟨1, .Sell, 10000, 50⟩]

/-- Seed scenario 1 pre-state: asks id 1 @10000 x100, id 2 @10100 x50,
id 3 @10200 x75. -/
def multiLevelBook : OrderBook :=
  submitAll OrderBook.new
    [⟨1, .Sell, 10000, 100⟩, ⟨2, .Sell, 10100, 50⟩, ⟨3, .Sell, 10200, 75⟩]

/-- A well-formed order line whose `quantity` field is the integer 0. -/
def zeroQtyLine : Json :=
  .obj [("id", .num 2), ("side", .str "Buy"),
        ("price", .num 10000), ("quantity", .num 0)]

/-- The order the gateway deserializes `zeroQtyLine` into. -/
def zeroQtyOrder : Order := ⟨2, .Buy, 10000, 0⟩

/-! ## Helper lemmas -/

theorem popLast_eq_some {α : Type} {v l : List α} {a : α}
    (h : popLast v = some (a, l)) : v = l ++ [a] := by
  unfold popLast at h
  cases hv : v.getLast? with
  | none => rw [hv] at h; exact absurd h (by simp)
  | some b =>
    rw [hv] at h
    simp only [Option.some.injEq, Prod.mk.injEq] at h
    obtain ⟨rfl, rfl⟩ := h
    have hne : v ≠ [] := by
      intro hn; rw [hn] at hv; simp at hv
    conv_lhs => rw [← List.dropLast_append_getLast hne]
    rw [List.getLast?_eq_getLast v hne] at hv
    simp only [Option.some.injEq] at hv
    rw [hv]

theorem popLast_eq_none {α : Type} {v : List α}
    (h : popLast v = none) : v = [] := by
  unfold popLast at h
  cases hv : v.getLast? with
  | none => exact List.getLast?_eq_none_iff.mp hv
  | some b => rw [hv] at h; exact absurd h (by simp)

theorem popLast_concat {α : Type} (l : List α) (a : α) :
    popLast (l ++ [a]) = some (a, l) := by
  unfold popLast
  rw [List.getLast?_concat, List.dropLast_concat]

/-! ## Claims C1 to C4: concrete evaluations of the engine -/

/-- Claim C1: time priority within a price level — the claim asserts the
match loop takes the oldest resting order of the best level first.  The
code pops the *last* element of the level's `Vec`, i.e. the newest.  On
seed scenario 4 (two asks at 10000, id 1 inserted first), the incoming
buy id 3 for 15 is matched first against maker id 2, then against maker
id 1, the reverse of insertion order, and the leftover quantity 5 stays
with id 1, not id 2. -/
theorem C1_time_priority_violated :
    (add_limit_order timePriorityBook ⟨3, .Buy, 10000, 15⟩).1 =
      [⟨2, 3, 10000, 10⟩, ⟨1, 3, 10000, 5⟩] ∧
    ((add_limit_order timePriorityBook ⟨3, .Buy, 10000, 15⟩).1.map
        (fun e => e.maker_order_id)) ≠ [1, 2] ∧
    (add_limit_order timePriorityBook ⟨3, .Buy, 10000, 15⟩).2.asks =
      [(10000, [⟨1, .Sell, 10000, 5⟩])] := by decide

/-- Claim C2: the claim asserts no empty price level survives a submit.
On seed scenario 3 (one ask id 1 @10000 x50, incoming buy id 2 @10000
x50) the trade `(1,2,10000,50)` happens, but the fully drained level at
key 10000 is left in `asks` as an empty `Vec` — the code comments the
removal out ("skipping for now"). -/
theorem C2_empty_level_survives :
    (add_limit_order exactFillBook ⟨2, .Buy, 10000, 50⟩).1 =
      [⟨1, 2, 10000, 50⟩] ∧
    (add_limit_order exactFillBook ⟨2, .Buy, 10000, 50⟩).2.asks =
      [(10000, [])] ∧
    ¬(∀ pl ∈ (add_limit_order exactFillBook ⟨2, .Buy, 10000, 50⟩).2.asks,
        pl.2 ≠ []) := by decide

/-- Claim C3: the claim asserts multi-level crossing.  On seed scenario 1
the buy id 4 @10100 x120 consumes the level at 10000, but the emptied
level is not removed, so the next iteration pops `None` from it and
breaks: only one execution is emitted (not the two the claim states) and
the leftover 20 rests as a bid at 10100 — crossing the remaining ask at
10100. -/
theorem C3_multi_level_crossing_fails :
    (add_limit_order multiLevelBook ⟨4, .Buy, 10100, 120⟩).1 =
      [⟨1, 4, 10000, 100⟩] ∧
    (add_limit_order multiLevelBook ⟨4, .Buy, 10100, 120⟩).1 ≠
      [⟨1, 4, 10000, 100⟩, ⟨2, 4, 10100, 20⟩] ∧
    (add_limit_order multiLevelBook ⟨4, .Buy, 10100, 120⟩).2.bids =
      [(10100, [⟨4, .Buy, 10100, 20⟩])] ∧
    (add_limit_order multiLevelBook ⟨4, .Buy, 10100, 120⟩).2.asks =
      [(10000, []), (10100, [⟨2, .Sell, 10100, 50⟩]),
        (10200, [⟨3, .Sell, 10200, 75⟩])] := by decide

/-- Claim C4: the claim asserts the book is non-crossed at rest.  After
seed scenario 1's submissions, price 10100 holds a resting order on
*both* sides, so the maximum resting bid price is not strictly below the
minimum resting ask price. -/
theorem C4_book_crossed_at_rest :
    10100 ∈ restingPrices
      (add_limit_order multiLevelBook ⟨4, .Buy, 10100, 120⟩).2.bids ∧
    10100 ∈ restingPrices
      (add_limit_order multiLevelBook ⟨4, .Buy, 10100, 120⟩).2.asks ∧
    ¬(∀ pb ∈ restingPrices
          (add_limit_order multiLevelBook ⟨4, .Buy, 10100, 120⟩).2.bids,
        ∀ pa ∈ restingPrices
          (add_limit_order multiLevelBook ⟨4, .Buy, 10100, 120⟩).2.asks,
        pb < pa) := by decide

/-! ## Claim C7: zero-quantity orders at the ingress adapter -/

/-- Claim C7 counterexample: the claim asserts a zero-quantity order line
is answered with an error and never enqueued.  But `quantity` is
deserialized as a plain `u64`, for which 0 is valid, and `handle_client`
performs no further validation: the line parses, is pushed onto the SPSC
ring, and is answered `accepted`. -/
theorem C7_zero_qty_not_rejected :
    handle_line zeroQtyLine true = (.accepted, some zeroQtyOrder) ∧
    (handle_line zeroQtyLine true).1 ≠ .parseError ∧
    (handle_line zeroQtyLine true).2 ≠ none := by decide

/-- Claim C7 as amended: a zero-quantity order line is *not* rejected at
ingress — whenever a line deserializes to an order (quantity 0 included)
and the ring has space, the gateway answers `accepted` and enqueues the
order, which therefore does reach the matching engine. -/
theorem C7_zero_qty_accepted_and_enqueued (line : Json) (o : Order)
    (hp : orderFromJson line = some o) (_hq : o.quantity = 0) :
    handle_line line true = (.accepted, some o) := by
  unfold handle_line
  rw [hp]
  rfl

theorem C7_zero_qty_accepted_and_enqueued_witness :
    orderFromJson zeroQtyLine = some zeroQtyOrder ∧
    zeroQtyOrder.quantity = 0 ∧
    handle_line zeroQtyLine true = (.accepted, some zeroQtyOrder) :=
  ⟨by decide, by decide,
    C7_zero_qty_accepted_and_enqueued zeroQtyLine zeroQtyOrder
      (by decide) (by decide)⟩

/-! ## Claim C8: zero-quantity orders at the book -/

/-- Claim C8: submitting an order with quantity 0 to any book produces no
executions and leaves the book unchanged: the match loop's
`while order.quantity > 0` never runs, and the residual-rest branch
`if order.quantity > 0` does not fire either. -/
theorem C8_zero_quantity_noop (book : OrderBook) (order : Order)
    (h : order.quantity = 0) :
    add_limit_order book order = ([], book) := by
  unfold add_limit_order
  cases hs : order.side <;> simp [h, buyLoopF, sellLoopF]

theorem C8_zero_quantity_noop_witness :
    (⟨7, .Buy, 9900, 0⟩ : Order).quantity = 0 ∧
    add_limit_order exactFillBook ⟨7, .Buy, 9900, 0⟩ = ([], exactFillBook) :=
  ⟨by decide, C8_zero_quantity_noop exactFillBook ⟨7, .Buy, 9900, 0⟩ (by decide)⟩

/-! ## Claim C6: quantity conservation in the match loop -/

/-- Each iteration of the buy match loop trades exactly the quantity it
removes from the taker, so summed execution quantity plus leftover taker
quantity equals the inbound quantity. -/
theorem buyLoopF_qty_sum (oid oprice : Nat) :
    ∀ (fuel qty : Nat) (asks : BookSide),
      execQtySum (buyLoopF oid oprice fuel qty asks).1 +
        (buyLoopF oid oprice fuel qty asks).2.1 = qty := by
  intro fuel
  induction fuel with
  | zero => intro qty asks; simp [buyLoopF, execQtySum]
  | succ n ih =>
    intro qty asks
    by_cases hq : qty = 0
    · simp [buyLoopF, hq, execQtySum]
    · match asks with
      | [] => simp [buyLoopF, hq, execQtySum]
      | (bp, orders) :: rest =>
        by_cases hc : bp ≤ oprice
        · match hpop : popLast orders with
          | some (m, popped) =>
            have hmin : min qty m.quantity ≤ qty := Nat.min_le_left _ _
            have hrec := ih (qty - min qty m.quantity)
              ((bp, if m.quantity - min qty m.quantity > 0 then
                  popped ++ [{m with quantity := m.quantity - min qty m.quantity}]
                else popped) :: rest)
            simp only [buyLoopF, if_neg hq, if_pos hc, hpop, execQtySum,
              List.map_cons, List.sum_cons] at hrec ⊢
            omega
          | none => simp [buyLoopF, hq, hc, hpop, execQtySum]
        · simp [buyLoopF, hq, hc, execQtySum]

/-- Sell-side analogue of `buyLoopF_qty_sum`. -/
theorem sellLoopF_qty_sum (oid oprice : Nat) :
    ∀ (fuel qty : Nat) (bids : BookSide),
      execQtySum (sellLoopF oid oprice fuel qty bids).1 +
        (sellLoopF oid oprice fuel qty bids).2.1 = qty := by
  intro fuel
  induction fuel with
  | zero => intro qty bids; simp [sellLoopF, execQtySum]
  | succ n ih =>
    intro qty bids
    by_cases hq : qty = 0
    · simp [sellLoopF, hq, execQtySum]
    · match hbpop : popLast bids with
      | some ((bp, orders), front) =>
        by_cases hc : oprice ≤ bp
        · match hpop : popLast orders with
          | some (m, popped) =>
            have hmin : min qty m.quantity ≤ qty := Nat.min_le_left _ _
            have hrec := ih (qty - min qty m.quantity)
              (front ++ [(bp, if m.quantity - min qty m.quantity > 0 then
                  popped ++ [{m with quantity := m.quantity - min qty m.quantity}]
                else popped)])
            simp only [sellLoopF, if_neg hq, if_pos hc, hbpop, hpop, execQtySum,
              List.map_cons, List.sum_cons] at hrec ⊢
            omega
          | none => simp [sellLoopF, hq, hc, hbpop, hpop, execQtySum]
        · simp [sellLoopF, hq, hc, hbpop, execQtySum]
      | none => simp [sellLoopF, hq, hbpop, execQtySum]

/-- Claim C6: the executions returned by one `add_limit_order` call trade
at most the inbound order's quantity in total. -/
theorem C6_quantity_cap (book : OrderBook) (order : Order) :
    execQtySum (add_limit_order book order).1 ≤ order.quantity := by
  have hb := buyLoopF_qty_sum order.id order.price
    (order.quantity + sideSize book.asks + 1) order.quantity book.asks
  have hs := sellLoopF_qty_sum order.id order.price
    (order.quantity + sideSize book.bids + 1) order.quantity book.bids
  unfold add_limit_order
  cases order.side <;> dsimp only <;> omega

/-! ## Price of the emitted executions -/

theorem buyLoopF_nil (oid oprice fuel qty : Nat) :
    buyLoopF oid oprice fuel qty [] = ([], qty, []) := by
  cases fuel with
  | zero => rfl
  | succ n => simp only [buyLoopF]; split <;> rfl

theorem sellLoopF_nil (oid oprice fuel qty : Nat) :
    sellLoopF oid oprice fuel qty [] = ([], qty, []) := by
  cases fuel with
  | zero => rfl
  | succ n => simp only [sellLoopF]; split <;> rfl

/-- Every execution the buy loop emits is priced at the key of the first
ask level, names the incoming order as taker, and only exists when the
taker's limit crosses that key.  (The first level's key never changes
during the loop: levels are never removed, and the loop only rewrites
the first level's order list.) -/
theorem buyLoopF_price (oid oprice bp : Nat) :
    ∀ (fuel qty : Nat) (lev : List Order) (rest : BookSide),
      ∀ e ∈ (buyLoopF oid oprice fuel qty ((bp, lev) :: rest)).1,
        e.price = bp ∧ e.taker_order_id = oid ∧ bp ≤ oprice := by
  intro fuel
  induction fuel with
  | zero => intro qty lev rest e he; simp [buyLoopF] at he
  | succ n ih =>
    intro qty lev rest e he
    by_cases hq : qty = 0
    · simp [buyLoopF, hq] at he
    · by_cases hc : bp ≤ oprice
      · match hpop : popLast lev with
        | some (m, popped) =>
          simp only [buyLoopF, if_neg hq, if_pos hc, hpop] at he
          rcases List.mem_cons.mp he with rfl | hmem
          · exact ⟨rfl, rfl, hc⟩
          · exact ih _ _ rest e hmem
        | none => simp [buyLoopF, hq, hc, hpop] at he
      · simp [buyLoopF, hq, hc] at he

/-- Sell-side analogue of `buyLoopF_price`: the best bid level is the
*last* entry of `bids`, and its key prices every execution. -/
theorem sellLoopF_price (oid oprice bp : Nat) :
    ∀ (fuel qty : Nat) (lev : List Order) (front : BookSide),
      ∀ e ∈ (sellLoopF oid oprice fuel qty (front ++ [(bp, lev)])).1,
        e.price = bp ∧ e.taker_order_id = oid ∧ oprice ≤ bp := by
  intro fuel
  induction fuel with
  | zero => intro qty lev front e he; simp [sellLoopF] at he
  | succ n ih =>
    intro qty lev front e he
    by_cases hq : qty = 0
    · simp [sellLoopF, hq] at he
    · by_cases hc : oprice ≤ bp
      · match hpop : popLast lev with
        | some (m, popped) =>
          simp only [sellLoopF, if_neg hq, if_pos hc, popLast_concat, hpop] at he
          rcases List.mem_cons.mp he with rfl | hmem
          · exact ⟨rfl, rfl, hc⟩
          · exact ih _ _ front e hmem
        | none => simp [sellLoopF, hq, hc, popLast_concat, hpop] at he
      · simp [sellLoopF, hq, hc, popLast_concat] at he

/-- Claim C10: all executions returned by a single `add_limit_order` call
carry one and the same price.  The emptied best level is never removed
during the loop, so the loop can never advance to a second price level:
every execution is priced at the initial best opposing key. -/
theorem C10_single_price (book : OrderBook) (order : Order)
    (e₁ e₂ : TradeExecution)
    (h₁ : e₁ ∈ (add_limit_order book order).1)
    (h₂ : e₂ ∈ (add_limit_order book order).1) :
    e₁.price = e₂.price := by
  unfold add_limit_order at h₁ h₂
  cases hs : order.side <;> rw [hs] at h₁ h₂ <;> dsimp only at h₁ h₂
  case Buy =>
    match hasks : book.asks with
    | [] =>
      rw [hasks, buyLoopF_nil] at h₁
      simp at h₁
    | (bp, lev) :: rest =>
      rw [hasks] at h₁ h₂
      have p₁ := (buyLoopF_price order.id order.price bp _ _ lev rest e₁ h₁).1
      have p₂ := (buyLoopF_price order.id order.price bp _ _ lev rest e₂ h₂).1
      rw [p₁, p₂]
  case Sell =>
    match hbids : popLast book.bids with
    | none =>
      rw [popLast_eq_none hbids, sellLoopF_nil] at h₁
      simp at h₁
    | some ((bp, lev), front) =>
      rw [popLast_eq_some hbids] at h₁ h₂
      have p₁ := (sellLoopF_price order.id order.price bp _ _ lev front e₁ h₁).1
      have p₂ := (sellLoopF_price order.id order.price bp _ _ lev front e₂ h₂).1
      rw [p₁, p₂]

theorem C10_single_price_witness :
    (⟨1, 2, 10000, 50⟩ : TradeExecution) ∈
      (add_limit_order exactFillBook ⟨2, .Buy, 10000, 50⟩).1 ∧
    (⟨1, 2, 10000, 50⟩ : TradeExecution).price =
      (⟨1, 2, 10000, 50⟩ : TradeExecution).price :=
  ⟨by decide,
    C10_single_price exactFillBook ⟨2, .Buy, 10000, 50⟩ _ _ (by decide) (by decide)⟩

/-! ## Origin of the maker ids -/

/-- Every maker id named by the buy loop is the id of an order of the
first ask level — stated with a transfer hypothesis so the induction can
replace the level by its rewritten versions. -/
theorem buyLoopF_maker (oid oprice bp : Nat) (lev₀ : List Order) :
    ∀ (fuel qty : Nat) (lev : List Order) (rest : BookSide),
      (∀ o ∈ lev, ∃ m ∈ lev₀, m.id = o.id) →
      ∀ e ∈ (buyLoopF oid oprice fuel qty ((bp, lev) :: rest)).1,
        ∃ m ∈ lev₀, m.id = e.maker_order_id := by
  intro fuel
  induction fuel with
  | zero => intro qty lev rest hlev e he; simp [buyLoopF] at he
  | succ n ih =>
    intro qty lev rest hlev e he
    by_cases hq : qty = 0
    · simp [buyLoopF, hq] at he
    · by_cases hc : bp ≤ oprice
      · match hpop : popLast lev with
        | some (m, popped) =>
          have hlev' : lev = popped ++ [m] := popLast_eq_some hpop
          have hm : m ∈ lev := by rw [hlev']; simp
          simp only [buyLoopF, if_neg hq, if_pos hc, hpop] at he
          rcases List.mem_cons.mp he with rfl | hmem
          · exact hlev m hm
          · refine ih _ _ rest ?_ e hmem
            intro o ho
            by_cases hcase : m.quantity - min qty m.quantity > 0
            · rw [if_pos hcase] at ho
              rcases List.mem_append.mp ho with hpo | hlast
              · exact hlev o (by rw [hlev']; exact List.mem_append_left _ hpo)
              · have heq : o = {m with quantity := m.quantity - min qty m.quantity} := by
                  simpa using hlast
                subst heq
                exact hlev m hm
            · rw [if_neg hcase] at ho
              exact hlev o (by rw [hlev']; exact List.mem_append_left _ ho)
        | none => simp [buyLoopF, hq, hc, hpop] at he
      · simp [buyLoopF, hq, hc] at he

/-- Sell-side analogue of `buyLoopF_maker`. -/
theorem sellLoopF_maker (oid oprice bp : Nat) (lev₀ : List Order) :
    ∀ (fuel qty : Nat) (lev : List Order) (front : BookSide),
      (∀ o ∈ lev, ∃ m ∈ lev₀, m.id = o.id) →
      ∀ e ∈ (sellLoopF oid oprice fuel qty (front ++ [(bp, lev)])).1,
        ∃ m ∈ lev₀, m.id = e.maker_order_id := by
  intro fuel
  induction fuel with
  | zero => intro qty lev front hlev e he; simp [sellLoopF] at he
  | succ n ih =>
    intro qty lev front hlev e he
    by_cases hq : qty = 0
    · simp [sellLoopF, hq] at he
    · by_cases hc : oprice ≤ bp
      · match hpop : popLast lev with
        | some (m, popped) =>
          have hlev' : lev = popped ++ [m] := popLast_eq_some hpop
          have hm : m ∈ lev := by rw [hlev']; simp
          simp only [sellLoopF, if_neg hq, if_pos hc, popLast_concat, hpop] at he
          rcases List.mem_cons.mp he with rfl | hmem
          · exact hlev m hm
          · refine ih _ _ front ?_ e hmem
            intro o ho
            by_cases hcase : m.quantity - min qty m.quantity > 0
            · rw [if_pos hcase] at ho
              rcases List.mem_append.mp ho with hpo | hlast
              · exact hlev o (by rw [hlev']; exact List.mem_append_left _ hpo)
              · have heq : o = {m with quantity := m.quantity - min qty m.quantity} := by
                  simpa using hlast
                subst heq
                exact hlev m hm
            · rw [if_neg hcase] at ho
              exact hlev o (by rw [hlev']; exact List.mem_append_left _ ho)
        | none => simp [sellLoopF, hq, hc, popLast_concat, hpop] at he
      · simp [sellLoopF, hq, hc, popLast_concat] at he

/-- Claim C5: every execution of a submit is priced at its maker's
resting price, and that price is at least as favorable to the taker as
the taker's limit.  Stated for well-formed books; well-formedness holds
for the empty book and is preserved by every submit, so every reachable
book satisfies it. -/
theorem C5_maker_price (book : OrderBook) (order : Order) (h : bookWF book)
    (e : TradeExecution) (he : e ∈ (add_limit_order book order).1) :
    (∃ pl ∈ opposing book order.side, ∃ m ∈ pl.2,
        m.id = e.maker_order_id ∧ m.price = e.price) ∧
    (order.side = .Buy → e.price ≤ order.price) ∧
    (order.side = .Sell → order.price ≤ e.price) := by
  unfold add_limit_order at he
  cases hs : order.side <;> rw [hs] at he <;> dsimp only at he <;>
    dsimp only [opposing]
  case Buy =>
    match hasks : book.asks with
    | [] => rw [hasks, buyLoopF_nil] at he; simp at he
    | (bp, lev) :: rest =>
      rw [hasks] at he
      obtain ⟨hp, -, hcross⟩ := buyLoopF_price order.id order.price bp _ _ lev rest e he
      obtain ⟨m, hm, hid⟩ := buyLoopF_maker order.id order.price bp lev _ _ lev rest
        (fun o ho => ⟨o, ho, rfl⟩) e he
      have hwfm := h.2 (bp, lev) (by rw [hasks]; exact List.mem_cons_self _ _) m hm
      refine ⟨⟨(bp, lev), List.mem_cons_self _ _,
        m, hm, hid, by rw [hwfm.2, hp]⟩, fun _ => by rw [hp]; exact hcross,
        fun hss => nomatch hss⟩
  case Sell =>
    match hbids : popLast book.bids with
    | none => rw [popLast_eq_none hbids, sellLoopF_nil] at he; simp at he
    | some ((bp, lev), front) =>
      have hb : book.bids = front ++ [(bp, lev)] := popLast_eq_some hbids
      rw [hb] at he
      obtain ⟨hp, -, hcross⟩ := sellLoopF_price order.id order.price bp _ _ lev front e he
      obtain ⟨m, hm, hid⟩ := sellLoopF_maker order.id order.price bp lev _ _ lev front
        (fun o ho => ⟨o, ho, rfl⟩) e he
      have hwfm := h.1 (bp, lev) (by rw [hb]; simp) m hm
      refine ⟨?_, ?_, ?_⟩
      · exact ⟨(bp, lev), by rw [hb]; simp, m, hm, hid, by rw [hwfm.2, hp]⟩
      · exact fun hss => nomatch hss
      · exact fun _ => by rw [hp]; exact hcross

theorem C5_maker_price_witness :
    bookWF exactFillBook ∧
    (⟨1, 2, 10000, 50⟩ : TradeExecution) ∈
      (add_limit_order exactFillBook ⟨2, .Buy, 10000, 50⟩).1 ∧
    ((∃ pl ∈ opposing exactFillBook (⟨2, .Buy, 10000, 50⟩ : Order).side,
        ∃ m ∈ pl.2, m.id = (⟨1, 2, 10000, 50⟩ : TradeExecution).maker_order_id ∧
          m.price = (⟨1, 2, 10000, 50⟩ : TradeExecution).price) ∧
      ((⟨2, .Buy, 10000, 50⟩ : Order).side = .Buy →
        (⟨1, 2, 10000, 50⟩ : TradeExecution).price ≤ (⟨2, .Buy, 10000, 50⟩ : Order).price) ∧
      ((⟨2, .Buy, 10000, 50⟩ : Order).side = .Sell →
        (⟨2, .Buy, 10000, 50⟩ : Order).price ≤ (⟨1, 2, 10000, 50⟩ : TradeExecution).price)) :=
  ⟨by decide, by decide,
    C5_maker_price exactFillBook ⟨2, .Buy, 10000, 50⟩ (by decide) _ (by decide)⟩

/-! ## Preservation of side/price consistency -/

/-- The buy loop never moves an order across levels or changes its side
or price: it only pops makers and pushes quantity-reduced copies back
into the same level, so side well-formedness of the asks is preserved. -/
theorem buyLoopF_sideWF (oid oprice : Nat) (s : OrderSide) :
    ∀ (fuel qty : Nat) (asks : BookSide), sideWF s asks →
      sideWF s (buyLoopF oid oprice fuel qty asks).2.2 := by
  intro fuel
  induction fuel with
  | zero => intro qty asks h; simpa [buyLoopF] using h
  | succ n ih =>
    intro qty asks h
    by_cases hq : qty = 0
    · simpa [buyLoopF, hq] using h
    · rcases asks with _ | ⟨⟨bp, orders⟩, rest⟩
      · simpa [buyLoopF, hq] using h
      · by_cases hc : bp ≤ oprice
        · match hpop : popLast orders with
          | some (m, popped) =>
            have hord : orders = popped ++ [m] := popLast_eq_some hpop
            have hmm : m ∈ orders := by rw [hord]; simp
            simp only [buyLoopF, if_neg hq, if_pos hc, hpop]
            refine ih _ _ ?_
            intro pl hpl o ho
            rcases List.mem_cons.mp hpl with rfl | hrest
            · by_cases hcase : m.quantity - min qty m.quantity > 0
              · rw [if_pos hcase] at ho
                rcases List.mem_append.mp ho with hpo | hlast
                · exact h (bp, orders) (List.mem_cons_self _ _) o
                    (by rw [hord]; exact List.mem_append_left _ hpo)
                · have heq : o = {m with quantity := m.quantity - min qty m.quantity} := by
                    simpa using hlast
                  have hm' := h (bp, orders) (List.mem_cons_self _ _) m hmm
                  subst heq
                  exact ⟨hm'.1, hm'.2⟩
              · rw [if_neg hcase] at ho
                exact h (bp, orders) (List.mem_cons_self _ _) o
                  (by rw [hord]; exact List.mem_append_left _ ho)
            · exact h pl (List.mem_cons_of_mem _ hrest) o ho
          | none => simpa [buyLoopF, hq, hc, hpop] using h
        · simpa [buyLoopF, hq, hc] using h

/-- Sell-side analogue of `buyLoopF_sideWF` for the bids. -/
theorem sellLoopF_sideWF (oid oprice : Nat) (s : OrderSide) :
    ∀ (fuel qty : Nat) (bids : BookSide), sideWF s bids →
      sideWF s (sellLoopF oid oprice fuel qty bids).2.2 := by
  intro fuel
  induction fuel with
  | zero => intro qty bids h; simpa [sellLoopF] using h
  | succ n ih =>
    intro qty bids h
    by_cases hq : qty = 0
    · simpa [sellLoopF, hq] using h
    · match hbpop : popLast bids with
      | some ((bp, orders), front) =>
        have hbids : bids = front ++ [(bp, orders)] := popLast_eq_some hbpop
        by_cases hc : oprice ≤ bp
        · match hpop : popLast orders with
          | some (m, popped) =>
            have hord : orders = popped ++ [m] := popLast_eq_some hpop
            have hmm : m ∈ orders := by rw [hord]; simp
            have hlvl : (bp, orders) ∈ bids := by rw [hbids]; simp
            simp only [sellLoopF, if_neg hq, if_pos hc, hbpop, hpop]
            refine ih _ _ ?_
            intro pl hpl o ho
            rcases List.mem_append.mp hpl with hfr | hlast
            · exact h pl (by rw [hbids]; exact List.mem_append_left _ hfr) o ho
            · have hpleq : pl = (bp, if m.quantity - min qty m.quantity > 0 then
                  popped ++ [{m with quantity := m.quantity - min qty m.quantity}]
                else popped) := by simpa using hlast
              subst hpleq
              by_cases hcase : m.quantity - min qty m.quantity > 0
              · rw [if_pos hcase] at ho
                rcases List.mem_append.mp ho with hpo | hlast'
                · exact h (bp, orders) hlvl o
                    (by rw [hord]; exact List.mem_append_left _ hpo)
                · have heq : o = {m with quantity := m.quantity - min qty m.quantity} := by
                    simpa using hlast'
                  have hm' := h (bp, orders) hlvl m hmm
                  subst heq
                  exact ⟨hm'.1, hm'.2⟩
              · rw [if_neg hcase] at ho
                exact h (bp, orders) hlvl o
                  (by rw [hord]; exact List.mem_append_left _ ho)
          | none => simpa [sellLoopF, hq, hc, hbpop, hpop] using h
        · simpa [sellLoopF, hq, hc, hbpop] using h
      | none => simpa [sellLoopF, hq, hbpop] using h

/-- `entry(p).or_insert_with(Vec::new).push(o)` preserves side
well-formedness when the pushed order carries the side of the map and
the key it is inserted at. -/
theorem entryPush_sideWF (s : OrderSide) (o : Order) (p : Nat)
    (ho : o.side = s) (hp : o.price = p) :
    ∀ m : BookSide, sideWF s m → sideWF s (entryPush m p o) := by
  intro m
  induction m with
  | nil =>
    intro _ pl hpl o' ho'
    simp only [entryPush, List.mem_singleton] at hpl
    subst hpl
    simp only [List.mem_singleton] at ho'
    subst ho'
    exact ⟨ho, hp⟩
  | cons kl rest ih =>
    intro h
    obtain ⟨k, l⟩ := kl
    simp only [entryPush]
    by_cases h1 : p < k
    · rw [if_pos h1]
      intro pl hpl o' ho'
      rcases List.mem_cons.mp hpl with rfl | hmem
      · simp only [List.mem_singleton] at ho'
        subst ho'
        exact ⟨ho, hp⟩
      · exact h pl hmem o' ho'
    · rw [if_neg h1]
      by_cases h2 : p = k
      · rw [if_pos h2]
        intro pl hpl o' ho'
        rcases List.mem_cons.mp hpl with rfl | hmem
        · rcases List.mem_append.mp ho' with hl | hr
          · exact h (k, l) (List.mem_cons_self _ _) o' hl
          · simp only [List.mem_singleton] at hr
            subst hr
            exact ⟨ho, by rw [hp, h2]⟩
        · exact h pl (List.mem_cons_of_mem _ hmem) o' ho'
      · rw [if_neg h2]
        intro pl hpl o' ho'
        rcases List.mem_cons.mp hpl with rfl | hmem
        · exact h (k, l) (List.mem_cons_self _ _) o' ho'
        · exact ih (fun pl' h' => h pl' (List.mem_cons_of_mem _ h')) pl hmem o' ho'

/-- Claim C9: `add_limit_order` preserves the book invariant that bids
hold only buy orders and asks only sell orders, each resting at the
level keyed by its own price: the loop pops and re-pushes within one
level, and a residual rests in its own side at key `order.price` with
its price field equal to `order.price`. -/
theorem C9_level_key_consistency (book : OrderBook) (order : Order)
    (h : bookWF book) : bookWF (add_limit_order book order).2 := by
  obtain ⟨hb, ha⟩ := h
  unfold add_limit_order
  cases hs : order.side <;> dsimp only
  case Buy =>
    constructor
    · split
      · refine entryPush_sideWF _ _ _ ?_ ?_ book.bids hb <;> rfl
      · exact hb
    · exact buyLoopF_sideWF order.id order.price .Sell _ _ book.asks ha
  case Sell =>
    constructor
    · exact sellLoopF_sideWF order.id order.price .Buy _ _ book.bids hb
    · split
      · refine entryPush_sideWF _ _ _ ?_ ?_ book.asks ha <;> rfl
      · exact ha

theorem C9_level_key_consistency_witness :
    bookWF multiLevelBook ∧
    bookWF (add_limit_order multiLevelBook ⟨4, .Buy, 10100, 120⟩).2 :=
  ⟨by decide, C9_level_key_consistency multiLevelBook ⟨4, .Buy, 10100, 120⟩ (by decide)⟩

/-! ## The wrapper's fuel is always sufficient

`add_limit_order` passes `quantity + sideSize side + 1` fuel to its
loop.  The next two theorems prove any fuel above `quantity + sideSize`
yields the same result, i.e. the fuel-indexed recursion reaches the
loop's own `break` before running out: the model computes exactly what
the unbounded Rust `while` loop computes. -/

theorem sideSize_cons (p : Nat) (l : List Order) (rest : BookSide) :
    sideSize ((p, l) :: rest) = l.length + sideSize rest := by
  simp [sideSize]

theorem sideSize_append (front : BookSide) (p : Nat) (l : List Order) :
    sideSize (front ++ [(p, l)]) = sideSize front + l.length := by
  simp [sideSize]

theorem buyLoopF_fuel_sufficient (oid oprice : Nat) :
    ∀ (n f₁ f₂ qty : Nat) (asks : BookSide),
      qty + sideSize asks ≤ n → qty + sideSize asks < f₁ →
      qty + sideSize asks < f₂ →
      buyLoopF oid oprice f₁ qty asks = buyLoopF oid oprice f₂ qty asks := by
  intro n
  induction n with
  | zero =>
    intro f₁ f₂ qty asks hm h1 h2
    obtain ⟨a, rfl⟩ : ∃ a, f₁ = a + 1 := ⟨f₁ - 1, by omega⟩
    obtain ⟨b, rfl⟩ : ∃ b, f₂ = b + 1 := ⟨f₂ - 1, by omega⟩
    have hq : qty = 0 := by omega
    simp [buyLoopF, hq]
  | succ n ih =>
    intro f₁ f₂ qty asks hm h1 h2
    obtain ⟨a, rfl⟩ : ∃ a, f₁ = a + 1 := ⟨f₁ - 1, by omega⟩
    obtain ⟨b, rfl⟩ : ∃ b, f₂ = b + 1 := ⟨f₂ - 1, by omega⟩
    by_cases hq : qty = 0
    · simp [buyLoopF, hq]
    · rcases asks with _ | ⟨⟨bp, orders⟩, rest⟩
      · simp [buyLoopF, hq]
      · by_cases hc : bp ≤ oprice
        · match hpop : popLast orders with
          | some (m, popped) =>
            have hord : orders = popped ++ [m] := popLast_eq_some hpop
            have hlen : orders.length = popped.length + 1 := by rw [hord]; simp
            rw [sideSize_cons, hlen] at hm h1 h2
            have hb : (qty - min qty m.quantity) + sideSize ((bp,
                if m.quantity - min qty m.quantity > 0 then
                  popped ++ [{m with quantity := m.quantity - min qty m.quantity}]
                else popped) :: rest) < qty + (popped.length + 1 + sideSize rest) := by
              rw [sideSize_cons]
              by_cases hcase : m.quantity - min qty m.quantity > 0
              · rw [if_pos hcase]
                simp only [List.length_append, List.length_cons, List.length_nil]
                omega
              · rw [if_neg hcase]
                omega
            have heq := ih a b (qty - min qty m.quantity)
              ((bp, if m.quantity - min qty m.quantity > 0 then
                  popped ++ [{m with quantity := m.quantity - min qty m.quantity}]
                else popped) :: rest) (by omega) (by omega) (by omega)
            simp only [buyLoopF, if_neg hq, if_pos hc, hpop]
            rw [heq]
          | none => simp [buyLoopF, hq, hc, hpop]
        · simp [buyLoopF, hq, hc]

theorem sellLoopF_fuel_sufficient (oid oprice : Nat) :
    ∀ (n f₁ f₂ qty : Nat) (bids : BookSide),
      qty + sideSize bids ≤ n → qty + sideSize bids < f₁ →
      qty + sideSize bids < f₂ →
      sellLoopF oid oprice f₁ qty bids = sellLoopF oid oprice f₂ qty bids := by
  intro n
  induction n with
  | zero =>
    intro f₁ f₂ qty bids hm h1 h2
    obtain ⟨a, rfl⟩ : ∃ a, f₁ = a + 1 := ⟨f₁ - 1, by omega⟩
    obtain ⟨b, rfl⟩ : ∃ b, f₂ = b + 1 := ⟨f₂ - 1, by omega⟩
    have hq : qty = 0 := by omega
    simp [sellLoopF, hq]
  | succ n ih =>
    intro f₁ f₂ qty bids hm h1 h2
    obtain ⟨a, rfl⟩ : ∃ a, f₁ = a + 1 := ⟨f₁ - 1, by omega⟩
    obtain ⟨b, rfl⟩ : ∃ b, f₂ = b + 1 := ⟨f₂ - 1, by omega⟩
    by_cases hq : qty = 0
    · simp [sellLoopF, hq]
    · match hbpop : popLast bids with
      | some ((bp, orders), front) =>
        have hbids : bids = front ++ [(bp, orders)] := popLast_eq_some hbpop
        by_cases hc : oprice ≤ bp
        · match hpop : popLast orders with
          | some (m, popped) =>
            have hord : orders = popped ++ [m] := popLast_eq_some hpop
            have hlen : orders.length = popped.length + 1 := by rw [hord]; simp
            rw [hbids, sideSize_append, hlen] at hm h1 h2
            have hb : (qty - min qty m.quantity) + sideSize (front ++ [(bp,
                if m.quantity - min qty m.quantity > 0 then
                  popped ++ [{m with quantity := m.quantity - min qty m.quantity}]
                else popped)]) < qty + (sideSize front + (popped.length + 1)) := by
              rw [sideSize_append]
              by_cases hcase : m.quantity - min qty m.quantity > 0
              · rw [if_pos hcase]
                simp only [List.length_append, List.length_cons, List.length_nil]
                omega
              · rw [if_neg hcase]
                omega
            have heq := ih a b (qty - min qty m.quantity)
              (front ++ [(bp, if m.quantity - min qty m.quantity > 0 then
                  popped ++ [{m with quantity := m.quantity - min qty m.quantity}]
                else popped)]) (by omega) (by omega) (by omega)
            simp only [sellLoopF, if_neg hq, if_pos hc, hbpop, hpop]
            rw [heq]
          | none => simp [sellLoopF, hq, hc, hbpop, hpop]
        · simp [sellLoopF, hq, hc, hbpop]
      | none => simp [sellLoopF, hq, hbpop]

end NanosecondArbiter
